import Mathlib

/-!
Verification of the bulk import pipeline of the foretagsinfo repository.

The development shallowly embeds the three import scripts:
  scripts/import-simple.py    (batched upsert path)
  scripts/import-csv-direct.py (PostgreSQL COPY bulk path)
  scripts/parquet-to-csv.py   (name cleaning shared with the upsert path)

Tabular cells are modelled by an inductive type with an explicit NaN value
(the pandas native absent value) and an explicit None value, so that the
scripts' null handling (df.replace(np.nan -> None), the "v is not None and
v == v" filter) can be stated exactly.  External sink semantics (the
Supabase upsert call, the PostgreSQL COPY transaction) are modelled from
the specification, as marked in the corresponding doc comments.
-/

namespace ForetagsInfo

/-- A cell of the tabular input: the pandas native absent value NaN, the
Python value None (produced by the replace step), or a proper value
(string, integer, boolean). -/
inductive Cell where
  | nan : Cell
  | none : Cell
  | str : String → Cell
  | num : Int → Cell
  | boolV : Bool → Cell
deriving DecidableEq

/-- A row is a mapping from column names to cells, as produced by
row.to_dict().items() in import-simple.py. -/
abbrev Row := List (String × Cell)

/-- Embeds import-simple.py line 42: df.replace(np.nan -> None). -/
def replaceNanCell : Cell → Cell
  | Cell.nan => Cell.none
  | c => c

/-- Embeds the character-level name cleaning of
df.str.split(dollar).str.get(0) (import-simple.py line 46 and
parquet-to-csv.py line 20): the characters preceding the first dollar
sign, the whole string when no dollar sign occurs. -/
def nameBeforeDelim (l : List Char) : List Char :=
  l.takeWhile (fun c => c != '$')

/-- String version of the name cleaning. -/
def cleanNameStr (s : String) : String :=
  String.mk (nameBeforeDelim s.data)

/-- Embeds the pandas .str accessor applied to one cell of the
organisationsnamn column: a string is split at the first dollar sign and
the head kept; any non-string entry (None, NaN, a number) becomes NaN,
which is how the pandas .str operations treat non-string elements. -/
def cleanNameCell : Cell → Cell
  | Cell.str s => Cell.str (cleanNameStr s)
  | _ => Cell.nan

/-- The per-cell normalization applied by import-simple.py lines 42-46:
first the NaN to None replacement on the whole frame, then the name
cleaning on the organisationsnamn column only. -/
def normalizeCellFor (k : String) (c : Cell) : Cell :=
  if k = "organisationsnamn" then cleanNameCell (replaceNanCell c)
  else replaceNanCell c

/-- Row-level normalization: every cell is normalized according to its
column name. -/
def normalizeRow (row : Row) : Row :=
  row.map (fun kv => (kv.1, normalizeCellFor kv.1 kv.2))

/-- Embeds the filter condition of import-simple.py line 63:
v is not None and v == v (the self-comparison is False exactly for NaN). -/
def keepCell : Cell → Bool
  | Cell.none => false
  | Cell.nan => false
  | _ => true

/-- A cell is absent when it is the native absent value NaN or None. -/
def isAbsentCell : Cell → Bool
  | Cell.none => true
  | Cell.nan => true
  | _ => false

/-- Embeds import-simple.py lines 60-64: the record dictionary built from
one row keeps exactly the cells passing the keepCell test. -/
def buildRecord (row : Row) : Row :=
  row.filter (fun kv => keepCell kv.2)

/-- Embeds import-simple.py lines 58-66: the records list of one batch
keeps the per-row record dictionaries that are non-empty
(the "if record" guard). -/
def recordsOf (batch : List Row) : List Row :=
  (batch.map buildRecord).filter (fun r => !r.isEmpty)

/-- Configured chunk size, import-simple.py line 18. -/
def BATCH_SIZE : Nat := 500

/-- Embeds import-simple.py line 49:
total_batches = (total_rows + BATCH_SIZE - 1) div BATCH_SIZE. -/
def numBatches (total size : Nat) : Nat := (total + size - 1) / size

/-- Embeds the slicing loop of import-simple.py lines 53-55:
for i in range(0, total_rows, BATCH_SIZE): batch = df.iloc from i to
i + BATCH_SIZE.  The b-th batch starts at offset b * size. -/
def chunks {α : Type} (size : Nat) (l : List α) : List (List α) :=
  (List.range (numBatches l.length size)).map (fun b => (l.drop (b * size)).take size)

/-- Fuel-indexed recursive presentation of the same chunking, used to
reason by induction; proved equal to chunks below. -/
def chunksF {α : Type} (size : Nat) : Nat → List α → List (List α)
  | _, [] => []
  | 0, _ :: _ => []
  | f + 1, x :: xs => ((x :: xs).take size) :: chunksF size f ((x :: xs).drop size)

/-- Length skeleton of the chunking: the sizes of the produced batches as
a function of the input length alone. -/
def sizesF (size : Nat) : Nat → Nat → List Nat
  | _, 0 => []
  | 0, _ + 1 => []
  | f + 1, n + 1 => min size (n + 1) :: sizesF size f (n + 1 - size)

/-- The sequence of record collections handed to the upsert call, one per
batch, as produced by import-simple.py lines 42-66: the frame is
normalized, sliced into chunks of BATCH_SIZE rows, and each chunk is
turned into its list of non-empty record dictionaries. -/
def upsertCalls (df : List Row) : List (List Row) :=
  (chunks BATCH_SIZE (df.map normalizeRow)).map recordsOf

/-- Running counters of the upsert loop, import-simple.py lines 50-51. -/
structure RunState where
  imported : Nat
  errors : Nat
deriving DecidableEq

/-- One iteration of the upsert loop, import-simple.py lines 70-83: the
batch index advances; on success the imported count grows by the number
of records sent, on failure the errors count grows by one.  The failure
of the sink call is abstracted by an oracle on the batch index. -/
def batchStep (fail : Nat → Bool) (p : RunState × Nat) (call : List Row) : RunState × Nat :=
  if fail p.2 then ({ p.1 with errors := p.1.errors + 1 }, p.2 + 1)
  else ({ p.1 with imported := p.1.imported + call.length }, p.2 + 1)

/-- The whole upsert loop over the list of batch payloads, together with
the number of batches attempted. -/
def runBatchesFull (fail : Nat → Bool) (calls : List (List Row)) : RunState × Nat :=
  calls.foldl (batchStep fail) (⟨0, 0⟩, 0)

/-- End-of-run state of import-simple.py main for a given input frame. -/
def runUpsert (fail : Nat → Bool) (df : List Row) : RunState :=
  (runBatchesFull fail (upsertCalls df)).1

/-- Embeds the run-end summary block, import-simple.py lines 85-89: the
counts exposed at end of run are the imported count and the errors
count, in this order, and nothing else. -/
def finalSummary (st : RunState) : List Nat := [st.imported, st.errors]

/-- Process exit code of import-simple.py: main returns normally whatever
the per-batch outcomes are, since every batch write is wrapped in
try/except and no exit call occurs; the process exits 0. -/
def importSimpleExit (_fail : Nat → Bool) (_df : List Row) : Nat := 0

/-- Expected total of imported records: the summed sizes of the payloads
of the non-failed batches, counting batch indices from i. -/
def expImported (fail : Nat → Bool) : Nat → List (List Row) → Nat
  | _, [] => 0
  | i, c :: cs => (if fail i then 0 else c.length) + expImported fail (i + 1) cs

/-- Expected total of errored batches: the number of failed batch
indices, counting from i. -/
def expErrors (fail : Nat → Bool) : Nat → List (List Row) → Nat
  | _, [] => 0
  | i, _ :: cs => (if fail i then 1 else 0) + expErrors fail (i + 1) cs

/-- Natural-key value of a record dictionary: the cell stored under the
organisationsidentitet column. -/
def rowKey (r : Row) : Cell :=
  match r.find? (fun kv => kv.1 == "organisationsidentitet") with
  | some kv => kv.2
  | Option.none => Cell.none

/-- Modelled from the spec: the sink's conflict-aware upsert call
(the Supabase client call of import-simple.py lines 72-75, external to
the repository) inserts a record or updates the existing row sharing the
same natural-key value, so the sink is a map from key to row. -/
def sinkUpsert (sink : Cell → Option Row) (r : Row) : Cell → Option Row :=
  fun c => if c = rowKey r then some r else sink c

/-- Applying a sequence of records to the sink in order. -/
def runUpsertSink (sink : Cell → Option Row) (recs : List Row) : Cell → Option Row :=
  recs.foldl sinkUpsert sink

/-- All record dictionaries sent to the sink during one upsert run, in
order. -/
def allRecords (df : List Row) : List Row := (upsertCalls df).flatten

/-- Sink contents after one full upsert run over the frame df. -/
def sinkAfterRun (sink : Cell → Option Row) (df : List Row) : Cell → Option Row :=
  runUpsertSink sink (allRecords df)

/-- The last record of the sequence carrying the given key, when any. -/
def lastApplied (recs : List Row) (k : Cell) : Option Row :=
  (recs.filter (fun r => rowKey r == k)).getLast?

/-- Resolution of a sink cell: the last applied record for the key wins,
otherwise the prior contents stay. -/
def lastWins : Option Row → Option Row → Option Row
  | some r, _ => some r
  | Option.none, old => old

/-- Modelled from the spec: the record-oriented upsert call updates only
the fields present in the payload; a field of the existing sink row that
the payload does not mention keeps its old value. -/
def mergeField (old : String → Option Cell) (payload : Row) (k : String) : Option Cell :=
  match payload.find? (fun kv => kv.1 == k) with
  | some kv => some kv.2
  | Option.none => old k

/-- Modelled from the spec: the streaming COPY transfer of
import-csv-direct.py lines 46-65 processes the rows in order and fails
as a whole at the first row violating a constraint (abstracted by the
failRow oracle); on success it yields the full row list. -/
def copyAttempt (failRow : Row → Bool) : List Row → Option (List Row)
  | [] => some []
  | r :: rs => if failRow r then Option.none
    else (copyAttempt failRow rs).map (fun t => r :: t)

/-- Embeds the transactional shape of import-csv-direct.py lines 25-81:
conn.commit() runs only after the COPY succeeds, so a failed transfer
leaves the sink table as it was and reaches the except branch, which
calls exit(1); a successful transfer commits all rows and the script
ends with exit code 0. -/
def bulkCopyRun (failRow : Row → Bool) (sink : List Row) (file : List Row) :
    List Row × Nat :=
  match copyAttempt failRow file with
  | some rs => (sink ++ rs, 0)
  | Option.none => (sink, 1)

/-- Embeds import-csv-direct.py lines 42-65 at the level of file lines:
next(f) unconditionally consumes the first line, then copy_expert
streams every remaining line; on an empty file next(f) raises
StopIteration, the except branch runs and the script exits 1 with
nothing transferred.  Result: the transferred lines and the exit code. -/
def importCsvDirect (file : List String) : List String × Nat :=
  match file with
  | [] => ([], 1)
  | _ :: rest => (rest, 0)

/-- Concrete frame whose single row is entirely native-absent. -/
def allAbsentDf : List Row :=
  [[("organisationsnamn", Cell.nan), ("verksamhetsbeskrivning", Cell.nan)]]

/-- Concrete one-row frame carrying a proper natural-key value. -/
def demoRowDf : List Row :=
  [[("organisationsidentitet", Cell.str "5560000001")]]

/-- Concrete two-row file for the bulk-copy example. -/
def demoFile : List Row :=
  [[("organisationsidentitet", Cell.str "5560000001")],
   [("organisationsidentitet", Cell.str "5560000002")]]

/-- Concrete failure oracle: the second row of demoFile violates a
constraint. -/
def demoFail (r : Row) : Bool :=
  r == [("organisationsidentitet", Cell.str "5560000002")]

/-! ### Chunking lemmas -/

theorem chunksF_flatten {α : Type} (s : Nat) (hs : 0 < s) :
    ∀ (f : Nat) (l : List α), l.length ≤ f → (chunksF s f l).flatten = l := by
  intro f
  induction f with
  | zero =>
    intro l hl
    have : l = [] := List.eq_nil_of_length_eq_zero (Nat.le_zero.mp hl)
    subst this; rfl
  | succ f ih =>
    intro l hl
    cases l with
    | nil => rfl
    | cons x xs =>
      have hdrop : ((x :: xs).drop s).length ≤ f := by
        rw [List.length_drop]
        have h1 : (x :: xs).length ≤ f + 1 := hl
        omega
      calc (chunksF s (f + 1) (x :: xs)).flatten
          = (x :: xs).take s ++ (chunksF s f ((x :: xs).drop s)).flatten := by
            rw [chunksF, List.flatten_cons]
        _ = (x :: xs).take s ++ (x :: xs).drop s := by rw [ih _ hdrop]
        _ = x :: xs := List.take_append_drop s (x :: xs)

theorem chunksF_mem_length {α : Type} (s : Nat) (hs : 0 < s) :
    ∀ (f : Nat) (l : List α), ∀ c ∈ chunksF s f l, 0 < c.length ∧ c.length ≤ s := by
  intro f
  induction f with
  | zero =>
    intro l c hc
    cases l with
    | nil => simp [chunksF] at hc
    | cons x xs => simp [chunksF] at hc
  | succ f ih =>
    intro l c hc
    cases l with
    | nil => simp [chunksF] at hc
    | cons x xs =>
      rw [chunksF, List.mem_cons] at hc
      rcases hc with hc | hc
      · subst hc
        constructor
        · simp [List.length_take]
          omega
        · simp [List.length_take]
      · exact ih _ c hc

theorem chunksF_eq_nil_iff {α : Type} (s : Nat) :
    ∀ (f : Nat) (l : List α), l.length ≤ f → (chunksF s f l = [] ↔ l = []) := by
  intro f l hl
  cases l with
  | nil => simp [chunksF]
  | cons x xs =>
    cases f with
    | zero => simp at hl
    | succ f => simp [chunksF]

theorem chunksF_dropLast_length {α : Type} (s : Nat) (hs : 0 < s) :
    ∀ (f : Nat) (l : List α), l.length ≤ f →
      ∀ c ∈ (chunksF s f l).dropLast, c.length = s := by
  intro f
  induction f with
  | zero =>
    intro l hl c hc
    have : l = [] := List.eq_nil_of_length_eq_zero (Nat.le_zero.mp hl)
    subst this; simp [chunksF] at hc
  | succ f ih =>
    intro l hl c hc
    cases l with
    | nil => simp [chunksF] at hc
    | cons x xs =>
      rw [chunksF] at hc
      cases hrest : chunksF s f ((x :: xs).drop s) with
      | nil => rw [hrest] at hc; simp at hc
      | cons y ys =>
        rw [hrest, List.dropLast_cons_of_ne_nil (List.cons_ne_nil y ys),
          List.mem_cons] at hc
        have hdroplen : ((x :: xs).drop s).length ≤ f := by
          rw [List.length_drop]
          have h1 : (x :: xs).length ≤ f + 1 := hl
          omega
        rcases hc with hc | hc
        · subst hc
          have hne : (x :: xs).drop s ≠ [] := by
            intro hnil
            rw [(chunksF_eq_nil_iff s f _ hdroplen).mpr hnil] at hrest
            exact List.cons_ne_nil y ys hrest.symm
          have hlen : s < (x :: xs).length := by
            have := List.length_pos.mpr hne
            rw [List.length_drop] at this
            omega
          rw [List.length_take]
          omega
        · exact ih _ hdroplen c (hrest ▸ hc)

theorem chunksF_map_length {α : Type} (s : Nat) :
    ∀ (f : Nat) (l : List α), (chunksF s f l).map List.length = sizesF s f l.length := by
  intro f
  induction f with
  | zero =>
    intro l
    cases l with
    | nil => rfl
    | cons x xs => rfl
  | succ f ih =>
    intro l
    cases l with
    | nil => rfl
    | cons x xs =>
      rw [chunksF, List.map_cons, ih]
      simp only [List.length_take, List.length_drop, List.length_cons]
      rw [sizesF]

theorem chunks_eq_chunksF {α : Type} (s : Nat) (hs : 0 < s) :
    ∀ (f : Nat) (l : List α), l.length ≤ f → chunks s l = chunksF s f l := by
  intro f
  induction f with
  | zero =>
    intro l hl
    have : l = [] := List.eq_nil_of_length_eq_zero (Nat.le_zero.mp hl)
    subst this
    simp [chunks, numBatches, chunksF, Nat.div_eq_of_lt, hs,
      Nat.sub_lt_self, List.range_zero]
  | succ f ih =>
    intro l hl
    cases l with
    | nil =>
      simp [chunks, numBatches, chunksF, Nat.div_eq_of_lt, hs]
    | cons x xs =>
      have hnum : numBatches (x :: xs).length s = xs.length / s + 1 := by
        show ((xs.length + 1) + s - 1) / s = xs.length / s + 1
        have h1 : (xs.length + 1) + s - 1 = xs.length + s := by omega
        rw [h1, Nat.add_div_right _ hs]
      have hrest : numBatches ((x :: xs).drop s).length s = xs.length / s := by
        rw [List.length_drop]
        show ((xs.length + 1 - s) + s - 1) / s = xs.length / s
        rcases Nat.lt_or_ge xs.length s with hlt | hge
        · have h1 : xs.length + 1 - s ≤ xs.length := by omega
          have h2 : (xs.length + 1 - s) + s - 1 ≤ xs.length + s - 1 := by omega
          have h3 : xs.length / s = 0 := Nat.div_eq_of_lt hlt
          rw [h3]
          apply Nat.div_eq_of_lt
          omega
        · have h1 : (xs.length + 1 - s) + s - 1 = xs.length := by omega
          rw [h1]
      rw [chunks, hnum, List.range_succ_eq_map, List.map_cons]
      rw [chunksF]
      congr 1
      · simp
      · have hdroplen : ((x :: xs).drop s).length ≤ f := by
          rw [List.length_drop]
          have h1 : (x :: xs).length ≤ f + 1 := hl
          omega
        rw [← ih _ hdroplen, chunks, hrest, List.map_map]
        apply List.map_congr_left
        intro b _
        show ((x :: xs).drop ((b + 1) * s)).take s
            = (((x :: xs).drop s).drop (b * s)).take s
        rw [List.drop_drop]
        congr 2
        ring

/-- C3: for every input sequence and every chunk size greater than zero,
the Batcher's batches concatenate back to the input (every record covered
exactly once, in input order), every batch is non-empty and at most the
chunk size, every batch except possibly the last has exactly the chunk
size, and in particular 1201 records at chunk size 500 yield exactly the
batch sizes 500, 500, 201 while still concatenating back to the input. -/
theorem batcher_covers_and_sizes {α : Type} (l : List α) (s : Nat) (hs : 0 < s) :
    (chunks s l).flatten = l
    ∧ (∀ c ∈ chunks s l, 0 < c.length ∧ c.length ≤ s)
    ∧ (∀ c ∈ (chunks s l).dropLast, c.length = s)
    ∧ (chunks 500 (List.range 1201)).map List.length = [500, 500, 201]
    ∧ (chunks 500 (List.range 1201)).flatten = List.range 1201 := by
  have h : chunks s l = chunksF s l.length l :=
    chunks_eq_chunksF s hs l.length l (Nat.le_refl _)
  have h500 : chunks 500 (List.range 1201) = chunksF 500 1201 (List.range 1201) := by
    have := chunks_eq_chunksF (α := Nat) 500 (by decide) 1201 (List.range 1201) (by simp)
    simpa using this
  refine ⟨?_, ?_, ?_, ?_, ?_⟩
  · rw [h]; exact chunksF_flatten s hs l.length l (Nat.le_refl _)
  · rw [h]; exact chunksF_mem_length s hs l.length l
  · rw [h]; exact chunksF_dropLast_length s hs l.length l (Nat.le_refl _)
  · rw [h500, chunksF_map_length]
    simp only [List.length_range]
    decide
  · rw [h500]; exact chunksF_flatten 500 (by decide) 1201 (List.range 1201) (by simp)

/-- Witness for batcher_covers_and_sizes at the concrete spec instance. -/
theorem batcher_covers_and_sizes_witness :
    (0 : Nat) < 500
    ∧ (chunks 500 (List.range 1201)).map List.length = [500, 500, 201] :=
  ⟨by decide, (batcher_covers_and_sizes (List.range 1201) 500 (by decide)).2.2.2.1⟩

/-- C8 counterexample: a chunk whose rows all normalize to empty yields an
empty record collection which is still the subject of an upsert call
(import-simple.py executes the upsert unconditionally for every chunk), so
the lower bound of 1 on the size of an upserted LoadBatch fails. -/
theorem empty_upsert_call_exists :
    ([] : List Row) ∈ upsertCalls allAbsentDf
    ∧ ([] : List Row).length < 1 := by
  exact ⟨by decide, by decide⟩

/-- C8 amended: every record collection passed to an upsert call has at
most BATCH_SIZE records; the lower bound 1 does not hold in general. -/
theorem upsert_call_size_le_batch_size (df : List Row) (call : List Row)
    (h : call ∈ upsertCalls df) : call.length ≤ BATCH_SIZE := by
  rw [upsertCalls] at h
  rcases List.mem_map.mp h with ⟨c, hc, rfl⟩
  rw [chunks_eq_chunksF BATCH_SIZE (by decide) _ _ (Nat.le_refl _)] at hc
  have h2 := (chunksF_mem_length BATCH_SIZE (by decide)
    (df.map normalizeRow).length (df.map normalizeRow) c hc).2
  calc (recordsOf c).length
      ≤ (c.map buildRecord).length := List.length_filter_le _ _
    _ = c.length := by simp
    _ ≤ BATCH_SIZE := h2

/-- Witness for upsert_call_size_le_batch_size on a concrete frame. -/
theorem upsert_call_size_le_batch_size_witness :
    ([[(("organisationsidentitet" : String), Cell.str "5560000001")]] : List Row)
        ∈ upsertCalls demoRowDf
    ∧ ([[(("organisationsidentitet" : String), Cell.str "5560000001")]] : List Row).length
        ≤ BATCH_SIZE :=
  ⟨by decide, upsert_call_size_le_batch_size demoRowDf _ (by decide)⟩

/-! ### Upsert loop accounting -/

theorem runBatches_foldl (fail : Nat → Bool) :
    ∀ (calls : List (List Row)) (st : RunState) (i : Nat),
      calls.foldl (batchStep fail) (st, i)
        = (⟨st.imported + expImported fail i calls,
            st.errors + expErrors fail i calls⟩, i + calls.length) := by
  intro calls
  induction calls with
  | nil =>
    intro st i
    simp [expImported, expErrors]
  | cons c cs ih =>
    intro st i
    rw [List.foldl_cons]
    cases hf : fail i with
    | true =>
      have hstep : batchStep fail (st, i) c
          = ({ st with errors := st.errors + 1 }, i + 1) := by
        simp [batchStep, hf]
      rw [hstep, ih]
      simp [expImported, expErrors, hf, Prod.ext_iff, RunState.mk.injEq]
      omega
    | false =>
      have hstep : batchStep fail (st, i) c
          = ({ st with imported := st.imported + c.length }, i + 1) := by
        simp [batchStep, hf]
      rw [hstep, ih]
      simp [expImported, expErrors, hf, Prod.ext_iff, RunState.mk.injEq]
      omega

theorem keepCell_normalize_absent (k : String) (c : Cell)
    (h : c = Cell.nan ∨ c = Cell.none) :
    keepCell (normalizeCellFor k c) = false := by
  rcases h with rfl | rfl <;>
    · rw [normalizeCellFor]
      split <;> rfl

/-- C6: over any sequence of batch payloads and any pattern of per-batch
write failures, the upsert run attempts every batch (the index reaches
the number of batches), the errored count equals the number of failed
batches, the imported count sums exactly the payload sizes of the
non-failed batches, one loop step on a failed batch adds one error and
leaves the imported count unchanged while advancing to the next batch,
and the process exit code is 0 regardless of the failures. -/
theorem upsert_batch_isolation (fail : Nat → Bool) (df : List Row) :
    (runBatchesFull fail (upsertCalls df)).2 = (upsertCalls df).length
    ∧ (runUpsert fail df).errors = expErrors fail 0 (upsertCalls df)
    ∧ (runUpsert fail df).imported = expImported fail 0 (upsertCalls df)
    ∧ (∀ st i call, batchStep fail (st, i) call
        = (if fail i then { st with errors := st.errors + 1 }
           else { st with imported := st.imported + call.length }, i + 1))
    ∧ importSimpleExit fail df = 0 := by
  have h := runBatches_foldl fail (upsertCalls df) ⟨0, 0⟩ 0
  refine ⟨?_, ?_, ?_, ?_, rfl⟩
  · rw [runBatchesFull, h]; simp
  · rw [runUpsert, runBatchesFull, h]; simp
  · rw [runUpsert, runBatchesFull, h]; simp
  · intro st i call
    cases hf : fail i <;> simp [batchStep, hf]

/-- C4 counterexample: running the upsert path over a frame whose single
row is entirely absent yields the run-end summary [0, 0]: the summary
exposes exactly two counts (imported and errored batches), and the
skipped-as-empty count of 1 that the claim promises appears nowhere. -/
theorem summary_has_no_skipped_count :
    finalSummary (runUpsert (fun _ => false) allAbsentDf) = [0, 0]
    ∧ (finalSummary (runUpsert (fun _ => false) allAbsentDf)).length = 2
    ∧ (finalSummary (runUpsert (fun _ => false) allAbsentDf)).count 1 = 0 :=
  ⟨by decide, by decide, by decide⟩

/-- C4 amended: a row all of whose fields are native-absent is not sent
to the sink — its record dictionary is empty and empty record
dictionaries never occur in an upsert payload; but the run keeps no
skipped-as-empty count: the run-end summary exposes exactly the imported
count and the errored-batch count, nothing else. -/
theorem empty_row_not_sent_two_count_summary (row : Row) (df : List Row)
    (fail : Nat → Bool)
    (h : ∀ kv ∈ row, kv.2 = Cell.nan ∨ kv.2 = Cell.none) :
    buildRecord (normalizeRow row) = []
    ∧ (∀ call ∈ upsertCalls df, ([] : Row) ∉ call)
    ∧ finalSummary (runUpsert fail df)
        = [(runUpsert fail df).imported, (runUpsert fail df).errors] := by
  refine ⟨?_, ?_, rfl⟩
  · rw [buildRecord, List.filter_eq_nil_iff]
    intro kv hkv
    rcases List.mem_map.mp hkv with ⟨kv0, hkv0, rfl⟩
    simp [keepCell_normalize_absent kv0.1 kv0.2 (h kv0 hkv0)]
  · intro call hcall
    rw [upsertCalls] at hcall
    rcases List.mem_map.mp hcall with ⟨c, _, rfl⟩
    intro hmem
    have := (List.mem_filter.mp hmem).2
    simp at this

/-- Witness for empty_row_not_sent_two_count_summary on the concrete
all-absent row. -/
theorem empty_row_not_sent_two_count_summary_witness :
    (∀ kv ∈ ([("organisationsnamn", Cell.nan),
        ("verksamhetsbeskrivning", Cell.nan)] : Row),
      kv.2 = Cell.nan ∨ kv.2 = Cell.none)
    ∧ buildRecord (normalizeRow
        [("organisationsnamn", Cell.nan), ("verksamhetsbeskrivning", Cell.nan)]) = [] :=
  ⟨by decide,
    (empty_row_not_sent_two_count_summary _ allAbsentDf (fun _ => false) (by decide)).1⟩

/-! ### Null handling and name normalization -/

theorem keepCell_eq_not_isAbsent (c : Cell) : keepCell c = !isAbsentCell c := by
  cases c <;> rfl

/-- C1 counterexample: an empty-string field value — one of the claim's
absent-value representations — survives normalization and is sent to the
sink as the empty string, not as the sink's null; a literal backslash-N
string value is likewise sent verbatim in the upsert payload. -/
theorem empty_string_reaches_sink :
    buildRecord (normalizeRow [("verksamhetsbeskrivning", Cell.str "")])
      = [("verksamhetsbeskrivning", Cell.str "")]
    ∧ buildRecord (normalizeRow [("verksamhetsbeskrivning", Cell.str "\\N")])
      = [("verksamhetsbeskrivning", Cell.str "\\N")]
    ∧ isAbsentCell (Cell.str "") = false
    ∧ isAbsentCell (Cell.str "\\N") = false :=
  ⟨by decide, by decide, rfl, rfl⟩

/-- C1 amended: only the native absent value is canonicalized — a field
whose value after normalization is NaN or None never occurs in the upsert
payload (the sink's null results from the omission), and every value that
does occur in the payload passes the keep test; empty-string and literal
backslash-N strings are not treated as absent and pass through unchanged,
as the counterexample shows. -/
theorem native_absent_never_reaches_sink (row : Row) (k : String) :
    (k, Cell.nan) ∉ buildRecord (normalizeRow row)
    ∧ (k, Cell.none) ∉ buildRecord (normalizeRow row)
    ∧ ∀ kv ∈ buildRecord (normalizeRow row), keepCell kv.2 = true := by
  refine ⟨?_, ?_, ?_⟩
  · intro hmem
    rw [buildRecord] at hmem
    have := (List.mem_filter.mp hmem).2
    simp [keepCell] at this
  · intro hmem
    rw [buildRecord] at hmem
    have := (List.mem_filter.mp hmem).2
    simp [keepCell] at this
  · intro kv hkv
    rw [buildRecord] at hkv
    exact (List.mem_filter.mp hkv).2

/-- Witness for native_absent_never_reaches_sink: a cleaned name value
is kept in the payload and passes the keep test. -/
theorem native_absent_never_reaches_sink_witness :
    (("organisationsnamn" : String), Cell.str "Acme AB")
        ∈ buildRecord (normalizeRow [("organisationsnamn", Cell.str "Acme AB$1")])
    ∧ keepCell (Cell.str "Acme AB") = true :=
  ⟨by decide, (native_absent_never_reaches_sink
      [("organisationsnamn", Cell.str "Acme AB$1")] "x").2.2
      ("organisationsnamn", Cell.str "Acme AB") (by decide)⟩

/-- C9: the record dictionary sent to the sink keeps exactly the fields
of the normalized row whose value is non-absent; absent fields are
omitted entirely, no value in any payload is absent, and under the
field-merging upsert semantics every sink field is either left unchanged
or set to a non-absent value — never overwritten with null. -/
theorem payload_exactly_non_absent (row : Row) :
    buildRecord (normalizeRow row)
      = (normalizeRow row).filter (fun kv => !isAbsentCell kv.2)
    ∧ (∀ kv ∈ buildRecord (normalizeRow row), isAbsentCell kv.2 = false)
    ∧ ∀ (old : String → Option Cell) (k : String),
        mergeField old (buildRecord (normalizeRow row)) k = old k
        ∨ ∃ c, mergeField old (buildRecord (normalizeRow row)) k = some c
            ∧ isAbsentCell c = false := by
  refine ⟨?_, ?_, ?_⟩
  · rw [buildRecord]
    exact List.filter_congr (fun kv _ => keepCell_eq_not_isAbsent kv.2)
  · intro kv hkv
    rw [buildRecord] at hkv
    have := (List.mem_filter.mp hkv).2
    rw [keepCell_eq_not_isAbsent] at this
    simpa using this
  · intro old k
    cases hfind : (buildRecord (normalizeRow row)).find? (fun kv => kv.1 == k) with
    | none =>
      left
      rw [mergeField, hfind]
    | some kv =>
      right
      refine ⟨kv.2, ?_, ?_⟩
      · rw [mergeField, hfind]
      · have hmem := List.mem_of_find?_eq_some hfind
        rw [buildRecord] at hmem
        have := (List.mem_filter.mp hmem).2
        rw [keepCell_eq_not_isAbsent] at this
        simpa using this

/-- Witness for payload_exactly_non_absent on a concrete one-field row. -/
theorem payload_exactly_non_absent_witness :
    (("organisationsidentitet" : String), Cell.str "5560000001")
        ∈ buildRecord (normalizeRow [("organisationsidentitet", Cell.str "5560000001")])
    ∧ isAbsentCell (Cell.str "5560000001") = false :=
  ⟨by decide, (payload_exactly_non_absent
      [("organisationsidentitet", Cell.str "5560000001")]).2.1
      ("organisationsidentitet", Cell.str "5560000001") (by decide)⟩

/-- C7: the cleaned name of a raw value containing the delimiter is the
substring preceding the first delimiter occurrence — the raw character
sequence decomposes as the cleaned part, then the delimiter, then a rest,
with no delimiter inside the cleaned part; a value without the delimiter
is unchanged; and the concrete raw name of the spec cleans as stated. -/
theorem name_normalization (s : String) :
    ('$' ∈ s.data →
      ∃ t, s.data = nameBeforeDelim s.data ++ '$' :: t
        ∧ '$' ∉ nameBeforeDelim s.data)
    ∧ ('$' ∉ s.data → cleanNameStr s = s)
    ∧ cleanNameStr "Acme AB$1" = "Acme AB"
    ∧ cleanNameCell (Cell.str "Acme AB$1") = Cell.str "Acme AB" := by
  refine ⟨?_, ?_, by decide, by decide⟩
  · intro hmem
    have hne : s.data.dropWhile (fun c => c != '$') ≠ [] := by
      intro hnil
      rw [List.dropWhile_eq_nil_iff] at hnil
      have := hnil '$' hmem
      simp at this
    refine ⟨(s.data.dropWhile (fun c => c != '$')).tail, ?_, ?_⟩
    · have hhead : (s.data.dropWhile (fun c => c != '$')).head hne = '$' := by
        have := List.head_dropWhile_not (fun c => c != '$') s.data hne
        simpa using this
      conv_lhs => rw [← List.takeWhile_append_dropWhile
        (p := fun c => c != '$') (l := s.data)]
      rw [nameBeforeDelim]
      congr 1
      have hct := List.head_cons_tail (s.data.dropWhile (fun c => c != '$')) hne
      rw [hhead] at hct
      exact hct.symm
    · intro hdol
      have := List.mem_takeWhile_imp hdol
      simp at this
  · intro hnot
    rw [cleanNameStr, nameBeforeDelim]
    have hself : s.data.takeWhile (fun c => c != '$') = s.data := by
      rw [List.takeWhile_eq_self_iff]
      intro x hx
      simp only [bne_iff_ne, ne_eq]
      intro heq
      exact hnot (heq ▸ hx)
    rw [hself]

/-- Witness for name_normalization at the concrete raw name of the spec. -/
theorem name_normalization_witness :
    '$' ∈ ("Acme AB$1" : String).data
    ∧ ∃ t, ("Acme AB$1" : String).data
          = nameBeforeDelim ("Acme AB$1" : String).data ++ '$' :: t
        ∧ '$' ∉ nameBeforeDelim ("Acme AB$1" : String).data :=
  ⟨by decide, (name_normalization "Acme AB$1").1 (by decide)⟩

/-! ### Sink semantics: upsert idempotence and bulk-copy atomicity -/

theorem runUpsertSink_lookup (recs : List Row) :
    ∀ (sink : Cell → Option Row) (k : Cell),
      runUpsertSink sink recs k = lastWins (lastApplied recs k) (sink k) := by
  induction recs using List.reverseRecOn with
  | nil =>
    intro sink k
    rfl
  | append_singleton l r ih =>
    intro sink k
    have hfold : runUpsertSink sink (l ++ [r]) k
        = sinkUpsert (runUpsertSink sink l) r k := by
      rw [runUpsertSink, List.foldl_append]
      rfl
    rw [hfold, sinkUpsert]
    cases hkey : rowKey r == k with
    | true =>
      have hk : k = rowKey r := (beq_iff_eq.mp hkey).symm
      rw [lastApplied, List.filter_append]
      have hfr : List.filter (fun q => rowKey q == k) [r] = [r] := by
        simp [List.filter, hkey]
      rw [hfr, List.getLast?_concat]
      simp [lastWins, hk]
    | false =>
      have hk : ¬(k = rowKey r) := by
        intro heq
        rw [heq] at hkey
        simp at hkey
      rw [lastApplied, List.filter_append]
      have hfr : List.filter (fun q => rowKey q == k) [r] = [] := by
        simp [List.filter, hkey]
      rw [hfr, List.append_nil]
      rw [if_neg hk]
      exact ih sink k

/-- C2: running the upsert path twice over the same input frame yields
exactly the same sink contents as running it once, and after a run every
key holds the last record applied for that key while untouched keys keep
their prior contents; the sink being a map keyed by the natural key
organisationsidentitet, it holds one row per key (no duplicates) by
construction. -/
theorem upsert_idempotent (sink : Cell → Option Row) (df : List Row) :
    sinkAfterRun (sinkAfterRun sink df) df = sinkAfterRun sink df
    ∧ ∀ k, sinkAfterRun sink df k
        = lastWins (lastApplied (allRecords df) k) (sink k) := by
  constructor
  · funext k
    have h1 : sinkAfterRun (sinkAfterRun sink df) df k
        = lastWins (lastApplied (allRecords df) k) (sinkAfterRun sink df k) := by
      rw [sinkAfterRun, runUpsertSink_lookup]
    have h2 : sinkAfterRun sink df k
        = lastWins (lastApplied (allRecords df) k) (sink k) := by
      rw [sinkAfterRun, runUpsertSink_lookup]
    rw [h1, h2]
    cases lastApplied (allRecords df) k with
    | none => rfl
    | some r => rfl
  · intro k
    rw [sinkAfterRun, runUpsertSink_lookup]

theorem copyAttempt_none (failRow : Row → Bool) :
    ∀ (file : List Row) (r : Row), r ∈ file → failRow r = true →
      copyAttempt failRow file = Option.none := by
  intro file
  induction file with
  | nil =>
    intro r hr _
    exact absurd hr (List.not_mem_nil r)
  | cons x xs ih =>
    intro r hr hf
    simp only [copyAttempt]
    cases hx : failRow x with
    | true => simp [hx]
    | false =>
      rcases List.mem_cons.mp hr with heq | hr2
      · subst heq
        rw [hx] at hf
        cases hf
      · simp [hx, ih r hr2 hf]

/-- C5: a bulk-copy run whose streaming transfer fails on any row leaves
the sink unchanged — nothing from the transfer is committed — and the
process exits with the non-zero code 1. -/
theorem bulk_copy_atomic_failure (failRow : Row → Bool) (sink file : List Row)
    (r : Row) (hr : r ∈ file) (hf : failRow r = true) :
    (bulkCopyRun failRow sink file).1 = sink
    ∧ (bulkCopyRun failRow sink file).2 = 1 := by
  have h := copyAttempt_none failRow file r hr hf
  rw [bulkCopyRun, h]
  exact ⟨rfl, rfl⟩

/-- Witness for bulk_copy_atomic_failure: a two-row file whose second row
fails leaves an empty sink empty and exits 1. -/
theorem bulk_copy_atomic_failure_witness :
    ([("organisationsidentitet", Cell.str "5560000002")] : Row) ∈ demoFile
    ∧ demoFail [("organisationsidentitet", Cell.str "5560000002")] = true
    ∧ (bulkCopyRun demoFail [] demoFile).1 = []
    ∧ (bulkCopyRun demoFail [] demoFile).2 = 1 :=
  ⟨by decide, by decide,
    (bulk_copy_atomic_failure demoFail [] demoFile
      [("organisationsidentitet", Cell.str "5560000002")] (by decide) (by decide)).1,
    (bulk_copy_atomic_failure demoFail [] demoFile
      [("organisationsidentitet", Cell.str "5560000002")] (by decide) (by decide)).2⟩

/-- C10: the bulk-copy loader unconditionally discards the first line of
its input file: the transferred lines are exactly the lines after the
first, so a first line that is a data row not repeated later is silently
absent from the transfer; on an empty file nothing is transferred and the
script exits 1 (the StopIteration of the header skip). -/
theorem bulk_copy_skips_first_line (l : String) (rest : List String) :
    (importCsvDirect (l :: rest)).1 = rest
    ∧ (importCsvDirect (l :: rest)).1 = (l :: rest).drop 1
    ∧ (l ∉ rest → l ∉ (importCsvDirect (l :: rest)).1)
    ∧ importCsvDirect [] = ([], 1) := by
  refine ⟨rfl, rfl, ?_, rfl⟩
  intro h
  exact h

/-- Witness for bulk_copy_skips_first_line: a headerless two-line file
loses its first data row. -/
theorem bulk_copy_skips_first_line_witness :
    ("5560000001,Acme AB" ∉ (["5569990000,Beta AB"] : List String))
    ∧ "5560000001,Acme AB"
        ∉ (importCsvDirect ["5560000001,Acme AB", "5569990000,Beta AB"]).1 :=
  ⟨by decide,
    (bulk_copy_skips_first_line "5560000001,Acme AB"
      ["5569990000,Beta AB"]).2.2.1 (by decide)⟩

end ForetagsInfo
